import Mathlib

/-!
Verification development for the qBittorrent search-plugin repository
(x1337xtube.py, leetx.py, bitsearch.py, torrentproject.py,
torrentgalaxy_one.py, piratebay.py, yts_mx.py).

The shallow embedding below translates the query-normalization,
relevance-scoring, deduplication, selection and emission logic of those
plugins into executable Lean definitions and proves or refutes the frozen
claims about them.

Strings are modelled as Lean `String`/`List Char`; Python regular
expressions used by the plugins are simple enough to be translated into
direct recursive character scans (the comments on each definition name the
Python function and regex it embeds).
-/

/-- Python `\s` whitespace class restricted to ASCII (the characters the
`str.strip`, `str.split` and `re` whitespace handling of the plugins act on):
space, tab, newline, carriage return, vertical tab, form feed. -/
def pyIsSpace (c : Char) : Bool :=
  c == ' ' || c == '\t' || c == '\n' || c == '\r' || c == '\x0b' || c == '\x0c'

/-- One step of Python `re.sub(r'\s+', ' ', s)`: scan the characters keeping a
flag that records whether the previous character belonged to a whitespace run;
the first character of each run becomes a single `' '` and the rest of the run
is dropped. -/
def collapseWsAux : Bool → List Char → List Char
  | _, [] => []
  | prevSpace, c :: rest =>
    if pyIsSpace c then
      if prevSpace then collapseWsAux true rest
      else ' ' :: collapseWsAux true rest
    else c :: collapseWsAux false rest

/-- Python `re.sub(r'\s+', ' ', s)`. -/
def collapseWs (l : List Char) : List Char := collapseWsAux false l

/-- Python `str.strip()`: drop whitespace from both ends. -/
def stripWs (l : List Char) : List Char :=
  ((l.dropWhile pyIsSpace).reverse.dropWhile pyIsSpace).reverse

/-- Two adjacent characters are not both whitespace — the shape invariant of
whitespace-collapsed text, used to reason about the cleaning transforms. -/
def NotBothSpace (a b : Char) : Prop := ¬(pyIsSpace a = true ∧ pyIsSpace b = true)

/-- Python `re.sub(r'[\(\[]\d{4}[\)\]]', '', s)` (x1337xtube, leetx,
bitsearch, torrentgalaxy_one, torrentproject conservative cleaning):
left-to-right scan removing every occurrence of an opening bracket, four
digits, and a closing bracket; on a match the scan continues after the match,
otherwise it advances one character, exactly like `re.sub`'s leftmost
non-overlapping global substitution. -/
def stripYearsAux : Nat → List Char → List Char
  | 0, l => l
  | _ + 1, [] => []
  | fuel + 1, c0 :: rest =>
    match rest with
    | c1 :: c2 :: c3 :: c4 :: c5 :: rest2 =>
      if (c0 == '(' || c0 == '[') && c1.isDigit && c2.isDigit && c3.isDigit
          && c4.isDigit && (c5 == ')' || c5 == ']') then
        stripYearsAux fuel rest2
      else
        c0 :: stripYearsAux fuel (c1 :: c2 :: c3 :: c4 :: c5 :: rest2)
    | _ => c0 :: rest

/-- The scan consumes at least one character per step, so `l.length` steps of
fuel always suffice. -/
def stripYears (l : List Char) : List Char := stripYearsAux l.length l

/-- Python `str.lower()` on the ASCII letters the plugins deal with. -/
def pyLower (s : String) : String := String.mk (s.data.map Char.toLower)

/-- `x1337xtube._get_conservative_query` (same text in `leetx`, `bitsearch`,
`torrentgalaxy_one._clean_query_conservative`,
`torrentproject._clean_conservative_query`): remove bracketed 4-digit years,
collapse whitespace runs, strip. -/
def get_conservative_query (query : String) : String :=
  String.mk (stripWs (collapseWs (stripYears query.data)))

/-- The character replacement of `re.sub(r'[^a-zA-Z0-9\s]', ' ', s)`:
characters that are neither ASCII alphanumeric nor whitespace become a
space. -/
def aggressiveReplace (c : Char) : Char :=
  if c.isAlphanum || pyIsSpace c then c else ' '

/-- `x1337xtube._get_aggressive_query` (same text in `leetx`, `bitsearch`,
`torrentgalaxy_one._clean_query_aggressive`,
`torrentproject._clean_aggressive_query`): replace every non-alphanumeric
non-whitespace character by a space, collapse whitespace, strip. -/
def get_aggressive_query (query : String) : String :=
  String.mk (stripWs (collapseWs (query.data.map aggressiveReplace)))

/-- The character replacement of `re.sub(r'[^a-zA-Z0-9]', ' ', s)`:
every non-alphanumeric character (whitespace included) becomes a space. -/
def keywordReplace (c : Char) : Char := if c.isAlphanum then c else ' '

/-- Python `str.split()` (no separator argument): split on whitespace runs,
discarding empty tokens.  The accumulator carries the current token
reversed. -/
def pySplitWsAux (acc : List Char) : List Char → List (List Char)
  | [] => if acc.isEmpty then [] else [acc.reverse]
  | c :: rest =>
    if pyIsSpace c then
      if acc.isEmpty then pySplitWsAux [] rest
      else acc.reverse :: pySplitWsAux [] rest
    else pySplitWsAux (c :: acc) rest

/-- Python `str.split()`. -/
def pySplitWs (l : List Char) : List String := (pySplitWsAux [] l).map String.mk

/-- `x1337xtube._get_keywords_for_scoring` (same text in
`leetx._get_keywords_for_scoring`, `bitsearch._get_keywords_for_scoring`,
`torrentproject._get_scoring_keywords`,
`torrentgalaxy_one._get_search_keywords`): replace non-alphanumeric characters
by spaces, collapse whitespace, strip, lowercase, split, and keep only tokens
longer than one character. -/
def get_keywords_for_scoring (query : String) : List String :=
  let replaced := query.data.map keywordReplace
  let cleaned := stripWs (collapseWs replaced)
  let lowered := cleaned.map Char.toLower
  (pySplitWs lowered).filter (fun word => 1 < word.length)

/-- The completeness-bonus part of `x1337xtube._calculate_advanced_score`:
`100` when the set of search keywords is non-empty and every one of its words
occurs among the title keywords (`Counter` membership), else `0`.
`search_keywords.dedup` plays the role of `set(search_keywords)`. -/
def calculate_advanced_score_bonus (torrent_title : String) (search_keywords : List String) : Nat :=
  let title_keywords := get_keywords_for_scoring (pyLower torrent_title)
  let unique_search_words := search_keywords.dedup
  if !unique_search_words.isEmpty
      && unique_search_words.all (fun word => title_keywords.contains word) then 100 else 0

/-- The term-frequency part of `x1337xtube._calculate_advanced_score`: for
each distinct search word, `min(count_in_search, count_in_title)`, summed.
Iterating over `search_keywords.dedup` models iterating over
`Counter(search_keywords).items()`. -/
def calculate_advanced_score_base (torrent_title : String) (search_keywords : List String) : Nat :=
  let title_keywords := get_keywords_for_scoring (pyLower torrent_title)
  (search_keywords.dedup.map
    (fun word => min (search_keywords.count word) (title_keywords.count word))).sum

/-- `x1337xtube._calculate_advanced_score` (same text in
`leetx._calculate_advanced_score` and `bitsearch._calculate_advanced_score`):
completeness bonus plus term-frequency score. -/
def calculate_advanced_score (torrent_title : String) (search_keywords : List String) : Nat :=
  calculate_advanced_score_bonus torrent_title search_keywords
    + calculate_advanced_score_base torrent_title search_keywords

/-- `torrentproject._calculate_score`: its body is identical (up to variable
names) to `x1337xtube._calculate_advanced_score`, so it is embedded as the
same function. -/
def torrentproject_calculate_score (torrent_title : String) (search_keywords : List String) : Nat :=
  calculate_advanced_score torrent_title search_keywords

/-- `torrentgalaxy_one._calculate_relevance_score`.  Unlike the other
scorers it has NO emptiness guard on the bonus:
`bonus = 100 if all(word in title_counts for word in search_keywords) else 0`,
and `all` over an empty iterable is `True` in Python, so an empty search
keyword list earns the bonus.  The term-frequency part is the same. -/
def torrentgalaxy_one_calculate_relevance_score (torrent_title : String) (search_keywords : List String) : Nat :=
  let title_keywords := get_keywords_for_scoring (pyLower torrent_title)
  let bonus :=
    if search_keywords.all (fun word => title_keywords.contains word) then 100 else 0
  let base_score :=
    (search_keywords.dedup.map
      (fun word => min (search_keywords.count word) (title_keywords.count word))).sum
  bonus + base_score

/-- One raw candidate record as parsed by the plugins before link
resolution: the fields every plugin's parse step fills in. -/
structure Torrent where
  name : String
  desc_link : String
  seeds : String
  leech : String
  size : String
deriving DecidableEq

/-- The record handed to `prettyPrinter` (the output sink). -/
structure EmitRecord where
  link : String
  name : String
  size : String
  seeds : String
  leech : String
  desc_link : String
deriving DecidableEq

/-- A candidate together with the `score` and `seeds_int` fields the search
loop attaches before sorting. -/
structure ScoredTorrent where
  torrent : Torrent
  score : Nat
  seeds_int : Int
deriving DecidableEq

/-- Python dict assignment `d[k] = v`: if the key is present its value is
replaced in place (key order kept), otherwise the pair is appended.  Used to
model the dict comprehension `{t['desc_link']: t for t in ...}` of
`x1337xtube.search` and `leetx.search`, where a later duplicate OVERWRITES the
stored value. -/
def pyDictInsert {κ α : Type} [DecidableEq κ] (k : κ) (v : α) : List (κ × α) → List (κ × α)
  | [] => [(k, v)]
  | (k', v') :: rest => if k' = k then (k', v) :: rest else (k', v') :: pyDictInsert k v rest

/-- The guarded insertion `if key not in d: d[key] = t` of
`torrentproject.search` and `bitsearch.search`: a later duplicate is
discarded. -/
def pyDictInsertIfAbsent {κ α : Type} [DecidableEq κ] (k : κ) (v : α) :
    List (κ × α) → List (κ × α)
  | [] => [(k, v)]
  | (k', v') :: rest =>
    if k' = k then (k', v') :: rest else (k', v') :: pyDictInsertIfAbsent k v rest

/-- Python dict lookup `d[k]` / `d.get(k)`. -/
def pyDictLookup {κ α : Type} [DecidableEq κ] (k : κ) : List (κ × α) → Option α
  | [] => none
  | (k', v') :: rest => if k' = k then some v' else pyDictLookup k rest

/-- The keys of a modelled dict, in insertion order. -/
def dictKeys {κ α : Type} (d : List (κ × α)) : List κ := d.map Prod.fst

/-- `all_torrents = {t['desc_link']: t for t in pass1_results + pass2_results}`
of `x1337xtube.search` (line 212) and `leetx.search` (line 280): the dict
built by inserting every candidate keyed by its description link, later
insertions overwriting earlier ones. -/
def x1337xtube_dict (l : List Torrent) : List (String × Torrent) :=
  (l.map (fun t => (t.desc_link, t))).foldl (fun d p => pyDictInsert p.1 p.2 d) []

/-- `final_candidates = list(all_torrents.values())` of `x1337xtube.search`. -/
def x1337xtube_dedup (l : List Torrent) : List Torrent :=
  (x1337xtube_dict l).map Prod.snd

/-- The explicit first-wins deduplication loop of `torrentproject.search`
(lines 223-227): `if desc_link not in unique_torrents: unique_torrents[...]`. -/
def torrentproject_dict (l : List Torrent) : List (String × Torrent) :=
  (l.map (fun t => (t.desc_link, t))).foldl (fun d p => pyDictInsertIfAbsent p.1 p.2 d) []

/-- `final_candidates = list(unique_torrents.values())` of
`torrentproject.search`. -/
def torrentproject_dedup (l : List Torrent) : List Torrent :=
  (torrentproject_dict l).map Prod.snd

/-- `key = f"{torrent['name']}_{torrent['size']}"` — the identity key of
`bitsearch.search` (line 463). -/
def bitsearch_dedup_key (t : Torrent) : String := t.name ++ "_" ++ t.size

/-- The first-wins deduplication loop of `bitsearch.search` (lines 460-465),
keyed by name and size. -/
def bitsearch_dict (l : List Torrent) : List (String × Torrent) :=
  (l.map (fun t => (bitsearch_dedup_key t, t))).foldl
    (fun d p => pyDictInsertIfAbsent p.1 p.2 d) []

/-- `final_candidates = list(all_torrents.values())` of `bitsearch.search`. -/
def bitsearch_dedup (l : List Torrent) : List Torrent :=
  (bitsearch_dict l).map Prod.snd

/-- The value stored under a key by the first pair carrying that key. -/
def firstPairVal {κ α : Type} [DecidableEq κ] (k : κ) : List (κ × α) → Option α
  | [] => none
  | (k', v) :: rest => if k' = k then some v else firstPairVal k rest

/-- The value stored under a key by the last pair carrying that key. -/
def lastPairVal {κ α : Type} [DecidableEq κ] (k : κ) (l : List (κ × α)) : Option α :=
  firstPairVal k l.reverse

/-- The first candidate in a list whose identity key is `k` — the record the
spec says deduplication retains. -/
def firstWithKey {κ : Type} [DecidableEq κ] (key : Torrent → κ) (k : κ) :
    List Torrent → Option Torrent
  | [] => none
  | t :: rest => if key t = k then some t else firstWithKey key k rest

/-- The last candidate in a list whose identity key is `k`. -/
def lastWithKey {κ : Type} [DecidableEq κ] (key : Torrent → κ) (k : κ)
    (l : List Torrent) : Option Torrent :=
  firstWithKey key k l.reverse

/-- `Option` fallback: the first operand when it is `some`, else the second. -/
def optOr {α : Type} : Option α → Option α → Option α
  | some x, _ => some x
  | none, b => b

/-- `re.sub(r'[\\/*?:"<>|]', '', name)` — the filesystem-unsafe characters
stripped from a title before emission (`x1337xtube.search` line 240,
`leetx.search` line 317, `bitsearch.search` line 503). -/
def sanitize_name (s : String) : String :=
  String.mk (s.data.filter (fun c => !(['\\', '/', '*', '?', ':', '\"', '<', '>', '|'].contains c)))

/-- The magnet-fetch-and-print loop of `x1337xtube.search` (lines 236-243),
`leetx.search` (lines 310-327) and `bitsearch.search` (lines 499-512): the
resolver (`_fetch_magnet_link`, modelled by the `fetch_magnet` oracle) either
returns the resolved magnet link or `none`; only candidates with a resolved
link are printed, with the sanitized name and the resolved link. -/
def x1337xtube_emit_phase (fetch_magnet : Torrent → Option String)
    (torrents_to_fetch : List Torrent) : List EmitRecord :=
  torrents_to_fetch.filterMap (fun t =>
    (fetch_magnet t).map (fun m =>
      { link := m, name := sanitize_name t.name, size := t.size,
        seeds := t.seeds, leech := t.leech, desc_link := t.desc_link }))

/-- The magnet-fetch-and-print loop of `torrentproject.search` (lines
256-275): a `torrent_dict` is prepared for EVERY selected candidate with the
placeholder `'link': '-1'`; when the resolver succeeds the link is replaced,
and `prettyPrinter(torrent_dict)` is called UNCONDITIONALLY — also for
candidates whose resolution failed. -/
def torrentproject_emit_phase (fetch_magnet : Torrent → Option String)
    (torrents_to_fetch : List Torrent) : List EmitRecord :=
  torrents_to_fetch.map (fun t =>
    { link := match fetch_magnet t with | some m => m | none => "-1",
      name := t.name, size := t.size, seeds := t.seeds, leech := t.leech,
      desc_link := t.desc_link })

/-- The descending lexicographic order on `(score, seeds_int)` realised by
`final_candidates.sort(key=lambda t: (t['score'], t['seeds_int']),
reverse=True)`: `a` comes no later than `b` iff `a`'s key is at least `b`'s. -/
def score_seeds_ge (a b : ScoredTorrent) : Prop :=
  b.score < a.score ∨ (b.score = a.score ∧ b.seeds_int ≤ a.seeds_int)

instance : DecidableRel score_seeds_ge := fun a b =>
  inferInstanceAs (Decidable (b.score < a.score ∨ (b.score = a.score ∧ b.seeds_int ≤ a.seeds_int)))

instance : IsTotal ScoredTorrent score_seeds_ge :=
  ⟨by intro a b; unfold score_seeds_ge; omega⟩

instance : IsTrans ScoredTorrent score_seeds_ge :=
  ⟨by intro a b c hab hbc; unfold score_seeds_ge at hab hbc ⊢; omega⟩

/-- The sort step of the search loops.  Python's `list.sort` is stable;
insertion sort is stable as well, so this is an exact model of the resulting
list order. -/
def x1337xtube_sort (l : List ScoredTorrent) : List ScoredTorrent :=
  List.insertionSort score_seeds_ge l

/-- `top_tier = [t for t in final_candidates if t['score'] == max_score]`
where `max_score = final_candidates[0]['score']` after the descending sort. -/
def top_tier_of : List ScoredTorrent → List ScoredTorrent
  | [] => []
  | s0 :: rest => (s0 :: rest).filter (fun t => t.score == s0.score)

/-- `lower_tier = [t for t in final_candidates if t['score'] < max_score]`. -/
def lower_tier_of : List ScoredTorrent → List ScoredTorrent
  | [] => []
  | s0 :: rest => (s0 :: rest).filter (fun t => decide (t.score < s0.score))

/-- The selection step (`x1337xtube.search` lines 224-233,
`torrentproject.search` lines 244-253, `bitsearch.search` lines 486-494):
every top-scoring candidate plus the first `safety_net_count` lower-scoring
ones in sorted order; on an empty candidate list nothing is selected. -/
def select_top_and_safety (safety_net_count : Nat)
    (sorted_candidates : List ScoredTorrent) : List ScoredTorrent :=
  top_tier_of sorted_candidates ++ (lower_tier_of sorted_candidates).take safety_net_count

/-- `SAFETY_NET_RESULTS_COUNT = 5` of x1337xtube, leetx and torrentproject. -/
def SAFETY_NET_RESULTS_COUNT : Nat := 5

/-- `SAFETY_NET_RESULTS_COUNT = 8` of bitsearch. -/
def bitsearch_SAFETY_NET_RESULTS_COUNT : Nat := 8

/-- The maximum relevance score present in a scored candidate list. -/
def maxScoreOf (l : List ScoredTorrent) : Nat :=
  (l.map (fun st => st.score)).foldr max 0

/-- `int(torrent['seeds'])` with `except ValueError: 0` — the seed-count
parse of the search loops. -/
def x1337xtube_seeds_int (seeds : String) : Int := (seeds.toInt?).getD 0

/-- The scoring loop of `x1337xtube.search` (lines 218-221): attach
`score` and `seeds_int` to every deduplicated candidate. -/
def x1337xtube_score_phase (search_keywords : List String)
    (final_candidates : List Torrent) : List ScoredTorrent :=
  final_candidates.map (fun t =>
    { torrent := t, score := calculate_advanced_score t.name search_keywords,
      seeds_int := x1337xtube_seeds_int t.seeds })

/-- `x1337xtube._execute_search_pass` at the level of the fetch oracle: an
empty query short-circuits to no results (`if not query: return []`) WITHOUT
fetching; otherwise the oracle `fetch` (standing for the parallel
page-fetch-and-parse over the page budget) is consulted.  The second
component records the queries for which a fetch was actually performed. -/
def x1337xtube_execute_search_pass (fetch : String → List Torrent)
    (query : String) : List Torrent × List String :=
  if query = "" then ([], []) else (fetch query, [query])

/-- `x1337xtube.search` (lines 194-243), with the two network effects
abstracted into oracles: `fetch` is the page-fetch-and-parse of one search
pass and `fetch_magnet` the magnet resolver; `decoded_what` stands for the
already percent-decoded query (`urllib.parse.unquote_plus(what)`).  Returns
the emitted records and the list of pass queries that were fetched. -/
def x1337xtube_search (fetch : String → List Torrent)
    (fetch_magnet : Torrent → Option String) (decoded_what : String) :
    List EmitRecord × List String :=
  let search_keywords := get_keywords_for_scoring decoded_what
  let pass1_query := get_conservative_query decoded_what
  let pass1 := x1337xtube_execute_search_pass fetch pass1_query
  let pass2_query := get_aggressive_query decoded_what
  let pass2 :=
    if pyLower pass2_query ≠ pyLower pass1_query then
      x1337xtube_execute_search_pass fetch pass2_query
    else ([], [])
  let final_candidates := x1337xtube_dedup (pass1.1 ++ pass2.1)
  let fetches := pass1.2 ++ pass2.2
  if final_candidates.isEmpty then ([], fetches)
  else
    let sorted := x1337xtube_sort (x1337xtube_score_phase search_keywords final_candidates)
    let to_fetch := select_top_and_safety SAFETY_NET_RESULTS_COUNT sorted
    (x1337xtube_emit_phase fetch_magnet (to_fetch.map (fun st => st.torrent)), fetches)

/-- The numeric value of one hex digit, as `urllib.parse.unquote` accepts
(upper or lower case). -/
def hexDigitVal (c : Char) : Option Nat :=
  if c.isDigit then some (c.toNat - '0'.toNat)
  else if 'a' ≤ c ∧ c ≤ 'f' then some (c.toNat - 'a'.toNat + 10)
  else if 'A' ≤ c ∧ c ≤ 'F' then some (c.toNat - 'A'.toNat + 10)
  else none

/-- `urllib.parse.unquote` for ASCII percent-escapes: each valid `%XX` pair
becomes the character with code `XX`, an invalid escape is kept literally.
(Multi-byte UTF-8 escape sequences are outside the inputs considered here.)
Fuel-driven scan, one character consumed per step. -/
def pyUnquoteAux : Nat → List Char → List Char
  | 0, l => l
  | _ + 1, [] => []
  | fuel + 1, c :: rest =>
    match c, rest with
    | '%', c1 :: c2 :: rest2 =>
      match hexDigitVal c1, hexDigitVal c2 with
      | some hi, some lo => Char.ofNat (16 * hi + lo) :: pyUnquoteAux fuel rest2
      | _, _ => '%' :: pyUnquoteAux fuel (c1 :: c2 :: rest2)
    | _, _ => c :: pyUnquoteAux fuel rest

/-- `urllib.parse.unquote` (ASCII model). -/
def pyUnquote (s : String) : String := String.mk (pyUnquoteAux s.data.length s.data)

/-- Matcher for one occurrence of `\(\s*\d{4}\s*\)` at the head of the list
(the pattern of `piratebay._clean_query` / `yts_mx._clean_query`); returns the
remainder after the match. -/
def matchParenYear : List Char → Option (List Char)
  | '(' :: rest =>
    match rest.dropWhile pyIsSpace with
    | d1 :: d2 :: d3 :: d4 :: r2 =>
      if d1.isDigit && d2.isDigit && d3.isDigit && d4.isDigit then
        match r2.dropWhile pyIsSpace with
        | ')' :: r4 => some r4
        | _ => none
      else none
    | _ => none
  | _ => none

/-- `re.sub(r'\(\s*\d{4}\s*\)', '', s)`: leftmost non-overlapping global
removal of parenthesised years, as a fuel-driven scan (each step consumes at
least one character, so `l.length` fuel suffices). -/
def removeParenYearsAux : Nat → List Char → List Char
  | 0, l => l
  | _ + 1, [] => []
  | fuel + 1, c :: rest =>
    match matchParenYear (c :: rest) with
    | some r => removeParenYearsAux fuel r
    | none => c :: removeParenYearsAux fuel rest

/-- `re.sub(r'\(\s*\d{4}\s*\)', '', s)`. -/
def removeParenYears (l : List Char) : List Char := removeParenYearsAux l.length l

/-- The ampersand truncation of `piratebay._clean_query` /
`yts_mx._clean_query`: `amp_pos = cleaned_query.find('&'); if amp_pos != -1:
cleaned_query = cleaned_query[:amp_pos].strip()`. -/
def truncateAtAmp (l : List Char) : List Char :=
  if l.contains '&' then stripWs (l.takeWhile (fun c => !(c == '&'))) else l

/-- The trailing-year removal of `piratebay._clean_query`: if the last
whitespace-separated word is a 4-digit number, drop it and re-join the rest
with single spaces, stripping the result; otherwise leave the text as is. -/
def removeTrailingYear (l : List Char) : List Char :=
  let words := pySplitWsAux [] l
  match words.getLast? with
  | some w =>
    if w.all Char.isDigit && w.length == 4 then
      stripWs (List.intercalate [' '] words.dropLast)
    else l
  | none => l

/-- `cleaned_query.replace('(', '').replace(')', '')`. -/
def removeParens (l : List Char) : List Char :=
  l.filter (fun c => !(c == '(' || c == ')'))

/-- `piratebay._clean_query` (identical text in `yts_mx._clean_query`):
percent-decode, truncate at the first ampersand, remove parenthesised years,
remove a trailing 4-digit year, remove parentheses, stripping whitespace
after each stage exactly as the Python does. -/
def piratebay_clean_query (query : String) : String :=
  let c1 := (pyUnquote query).data
  let c2 := truncateAtAmp c1
  let c3 := stripWs (removeParenYears c2)
  let c4 := removeTrailingYear c3
  let c5 := stripWs (removeParens c4)
  String.mk c5

/-- Sample candidate: the copy of a result returned by the first search
pass. -/
def torrentA : Torrent :=
  { name := "Pass One Copy", desc_link := "https://example.com/t/1",
    seeds := "10", leech := "2", size := "1 GB" }

/-- Sample candidate: the copy of the SAME result (same identity key) as
returned by the second search pass, with differing metadata. -/
def torrentB : Torrent :=
  { name := "Pass Two Copy", desc_link := "https://example.com/t/1",
    seeds := "7", leech := "1", size := "1 GB" }

/-- Sample candidate with its own identity key. -/
def torrentC : Torrent :=
  { name := "Unresolved Item", desc_link := "https://example.com/t/2",
    seeds := "3", leech := "0", size := "700 MB" }

/-- A title consisting of the word `aa` repeated 100 times. -/
def c10_title : String := String.intercalate " " (List.replicate 100 "aa")

/-- A search-keyword list with 100 occurrences of `aa` and one `bb`. -/
def c10_keywords : List String := List.replicate 100 "aa" ++ ["bb"]

/-- A sample scored candidate. -/
def scoredW : ScoredTorrent := { torrent := torrentC, score := 7, seeds_int := 3 }

/-- C3 counterexample: `torrentgalaxy_one._calculate_relevance_score` applied
with an empty search-keyword list returns 100, not 0 — the vacuous `all` over
the empty keyword set is `True` and the +100 completeness bonus IS awarded
(there is no emptiness guard in that implementation). -/
theorem C3_counterexample :
    torrentgalaxy_one_calculate_relevance_score "The Matrix" [] = 100 := rfl

/-- C3 amended: with an empty search-keyword list, the scorers of
`x1337xtube`/`leetx`/`bitsearch` and of `torrentproject` return 0 (their
completeness bonus is guarded by a non-emptiness test), but
`torrentgalaxy_one`'s scorer returns 100 (its bonus has no such guard, and the
vacuous `all` over an empty set is true). -/
theorem C3_empty_keywords_amended (title : String) :
    calculate_advanced_score title [] = 0
      ∧ torrentproject_calculate_score title [] = 0
      ∧ torrentgalaxy_one_calculate_relevance_score title [] = 100 :=
  ⟨rfl, rfl, rfl⟩

/-- C7 counterexample: keyword extraction on `"a I of cat"` yields the
multiset `{of: 1, cat: 1}`, not `{cat: 1}` — the token `"of"` has length 2,
which is NOT `≤ 1`, so it is kept. -/
theorem C7_counterexample :
    get_keywords_for_scoring "a I of cat" = ["of", "cat"]
      ∧ get_keywords_for_scoring "a I of cat" ≠ ["cat"] := by
  exact ⟨rfl, by decide⟩

/-- C7 amended: the keyword-extraction function does drop every token of
length at most 1 (every kept keyword has length > 1), but
`extractKeywords("a I of cat")` is the multiset `{of: 1, cat: 1}`: only the
single-character tokens `a` and `I` are dropped, `of` survives. -/
theorem C7_keyword_floor_amended :
    (∀ (s : String) (w : String), w ∈ get_keywords_for_scoring s → 1 < w.length)
      ∧ get_keywords_for_scoring "a I of cat" = ["of", "cat"] := by
  constructor
  · intro s w hw
    have := List.of_mem_filter (p := fun (word : String) => decide (1 < word.length)) hw
    exact of_decide_eq_true this
  · rfl

/-- C7 witness: instantiating the amended theorem at the concrete input. -/
theorem C7_keyword_floor_witness : 1 < ("of" : String).length :=
  C7_keyword_floor_amended.1 "a I of cat" "of" (by decide)

/-- C9 confirmed: the keyword set extracted from `"the matrix"` is
`{the: 1, matrix: 1}`, and scoring the title `"The Matrix 1999 1080p"`
against it gives the completeness bonus of 100 plus a term-frequency base of
`min(1,1) + min(1,1) = 2`, total 102. -/
theorem C9_score_example :
    get_keywords_for_scoring "the matrix" = ["the", "matrix"]
      ∧ calculate_advanced_score "The Matrix 1999 1080p"
          (get_keywords_for_scoring "the matrix") = 102 := by
  exact ⟨rfl, by decide⟩

/-! ### Whitespace-collapsing machinery (for the idempotence analysis, C4) -/

theorem notBothSpace_symm {a b : Char} (h : NotBothSpace a b) : NotBothSpace b a :=
  fun hc => h ⟨hc.2, hc.1⟩

theorem mem_collapseWsAux (c : Char) (l : List Char) :
    ∀ prev, c ∈ collapseWsAux prev l → c = ' ' ∨ (c ∈ l ∧ pyIsSpace c = false) := by
  induction l with
  | nil => intro prev h; simp [collapseWsAux] at h
  | cons a rest ih =>
    intro prev h
    by_cases ha : pyIsSpace a = true
    · cases prev with
      | true =>
        rw [show collapseWsAux true (a :: rest) = collapseWsAux true rest from by
          simp [collapseWsAux, ha]] at h
        rcases ih true h with h1 | ⟨h2, h3⟩
        · exact Or.inl h1
        · exact Or.inr ⟨List.mem_cons_of_mem _ h2, h3⟩
      | false =>
        rw [show collapseWsAux false (a :: rest) = ' ' :: collapseWsAux true rest from by
          simp [collapseWsAux, ha]] at h
        rcases List.mem_cons.mp h with h1 | h1
        · exact Or.inl h1
        · rcases ih true h1 with h2 | ⟨h3, h4⟩
          · exact Or.inl h2
          · exact Or.inr ⟨List.mem_cons_of_mem _ h3, h4⟩
    · rw [show collapseWsAux prev (a :: rest) = a :: collapseWsAux false rest from by
        simp [collapseWsAux, ha]] at h
      rcases List.mem_cons.mp h with h1 | h1
      · subst h1; exact Or.inr ⟨List.mem_cons_self _ _, by simpa using ha⟩
      · rcases ih false h1 with h2 | ⟨h3, h4⟩
        · exact Or.inl h2
        · exact Or.inr ⟨List.mem_cons_of_mem _ h3, h4⟩

theorem head_collapseWsAux_true (l : List Char) :
    ∀ h, (collapseWsAux true l).head? = some h → pyIsSpace h = false := by
  induction l with
  | nil => intro h hh; simp [collapseWsAux] at hh
  | cons a rest ih =>
    intro h hh
    by_cases ha : pyIsSpace a = true
    · rw [show collapseWsAux true (a :: rest) = collapseWsAux true rest from by
        simp [collapseWsAux, ha]] at hh
      exact ih h hh
    · rw [show collapseWsAux true (a :: rest) = a :: collapseWsAux false rest from by
        simp [collapseWsAux, ha]] at hh
      simp only [List.head?_cons, Option.some.injEq] at hh
      subst hh; simpa using ha

theorem chain'_collapseWsAux (l : List Char) :
    ∀ prev, (collapseWsAux prev l).Chain' NotBothSpace := by
  induction l with
  | nil => intro prev; simp [collapseWsAux]
  | cons a rest ih =>
    intro prev
    by_cases ha : pyIsSpace a = true
    · cases prev with
      | true =>
        rw [show collapseWsAux true (a :: rest) = collapseWsAux true rest from by
          simp [collapseWsAux, ha]]
        exact ih true
      | false =>
        rw [show collapseWsAux false (a :: rest) = ' ' :: collapseWsAux true rest from by
          simp [collapseWsAux, ha]]
        refine List.chain'_cons'.mpr ⟨?_, ih true⟩
        intro h hh hcontra
        exact absurd hcontra.2 (by simp [head_collapseWsAux_true rest h hh])
    · rw [show collapseWsAux prev (a :: rest) = a :: collapseWsAux false rest from by
        simp [collapseWsAux, ha]]
      refine List.chain'_cons'.mpr ⟨?_, ih false⟩
      intro h hh hcontra
      exact absurd hcontra.1 (by simpa using ha)

theorem chain'_dropWhile {R : Char → Char → Prop} (p : Char → Bool) :
    ∀ l : List Char, l.Chain' R → (l.dropWhile p).Chain' R := by
  intro l
  induction l with
  | nil => intro _; simp
  | cons a rest ih =>
    intro h
    by_cases ha : p a = true
    · simp only [List.dropWhile_cons, ha, if_true]
      exact ih h.tail
    · simpa [List.dropWhile_cons, ha] using h

theorem head_dropWhile_not (p : Char → Bool) :
    ∀ (l : List Char) (h : Char), (l.dropWhile p).head? = some h → p h = false := by
  intro l
  induction l with
  | nil => intro h hh; simp at hh
  | cons a rest ih =>
    intro h hh
    by_cases ha : p a = true
    · rw [show (a :: rest).dropWhile p = rest.dropWhile p from by
        simp [List.dropWhile_cons, ha]] at hh
      exact ih h hh
    · rw [show (a :: rest).dropWhile p = a :: rest from by
        simp [List.dropWhile_cons, ha]] at hh
      simp only [List.head?_cons, Option.some.injEq] at hh
      subst hh; simpa using ha

theorem dropWhile_eq_self_of_head (p : Char → Bool) (l : List Char)
    (h : ∀ x, l.head? = some x → p x = false) : l.dropWhile p = l := by
  cases l with
  | nil => rfl
  | cons a rest => simp [List.dropWhile_cons, h a rfl]

theorem stripWs_sublist (l : List Char) : (stripWs l).Sublist l := by
  have d1 : (l.dropWhile pyIsSpace).Sublist l := List.dropWhile_sublist _
  have d2 : (((l.dropWhile pyIsSpace).reverse.dropWhile pyIsSpace)).Sublist
      (l.dropWhile pyIsSpace).reverse := List.dropWhile_sublist _
  have d3 := d2.reverse
  rw [List.reverse_reverse] at d3
  exact d3.trans d1

theorem stripWs_chain' (l : List Char) (h : l.Chain' NotBothSpace) :
    (stripWs l).Chain' NotBothSpace := by
  have h1 : (l.dropWhile pyIsSpace).Chain' NotBothSpace := chain'_dropWhile _ _ h
  have h2 : ((l.dropWhile pyIsSpace).reverse).Chain' NotBothSpace :=
    List.chain'_reverse.mpr (h1.imp fun _ _ hr => notBothSpace_symm hr)
  have h3 : (((l.dropWhile pyIsSpace).reverse.dropWhile pyIsSpace)).Chain' NotBothSpace :=
    chain'_dropWhile _ _ h2
  exact List.chain'_reverse.mpr (h3.imp fun _ _ hr => notBothSpace_symm hr)

theorem stripWs_head_not_space (l : List Char) :
    ∀ h, (stripWs l).head? = some h → pyIsSpace h = false := by
  intro h hh
  have hpre : (stripWs l).IsPrefix (l.dropWhile pyIsSpace) := by
    have hs : (((l.dropWhile pyIsSpace).reverse.dropWhile pyIsSpace)).IsSuffix
        (l.dropWhile pyIsSpace).reverse := List.dropWhile_suffix _
    have hp := List.reverse_prefix.mpr hs
    rwa [List.reverse_reverse] at hp
  obtain ⟨t, ht⟩ := hpre
  have hhead : (l.dropWhile pyIsSpace).head? = some h := by
    rw [← ht]
    cases hsl : stripWs l with
    | nil => rw [hsl] at hh; simp at hh
    | cons c cs =>
      rw [hsl] at hh
      simp only [List.head?_cons, Option.some.injEq] at hh
      simpa using hh
  exact head_dropWhile_not _ l h hhead

theorem stripWs_getLast_not_space (l : List Char) :
    ∀ h, (stripWs l).getLast? = some h → pyIsSpace h = false := by
  intro h hh
  rw [show stripWs l = (((l.dropWhile pyIsSpace).reverse.dropWhile pyIsSpace)).reverse from rfl,
    List.getLast?_reverse] at hh
  exact head_dropWhile_not _ _ h hh

theorem stripWs_eq_self (l : List Char)
    (h1 : ∀ x, l.head? = some x → pyIsSpace x = false)
    (h2 : ∀ x, l.getLast? = some x → pyIsSpace x = false) : stripWs l = l := by
  unfold stripWs
  rw [dropWhile_eq_self_of_head _ l h1]
  rw [dropWhile_eq_self_of_head _ l.reverse
    (fun x hx => h2 x (by rwa [List.head?_reverse] at hx))]
  exact List.reverse_reverse l

theorem collapseWsAux_eq_self :
    ∀ (l : List Char) (prev : Bool),
      (∀ c ∈ l, pyIsSpace c = true → c = ' ') → l.Chain' NotBothSpace →
      (prev = true → ∀ x, l.head? = some x → pyIsSpace x = false) →
      collapseWsAux prev l = l := by
  intro l
  induction l with
  | nil => intro prev _ _ _; cases prev <;> rfl
  | cons a rest ih =>
    intro prev hchars hchain hhead
    by_cases ha : pyIsSpace a = true
    · cases prev with
      | true =>
        have hf := hhead rfl a rfl
        rw [hf] at ha
        exact absurd ha (by decide)
      | false =>
        have ha' : a = ' ' := hchars a (List.mem_cons_self _ _) ha
        rw [show collapseWsAux false (a :: rest) = ' ' :: collapseWsAux true rest from by
          simp [collapseWsAux, ha]]
        rw [ih true (fun c hc => hchars c (List.mem_cons_of_mem _ hc)) hchain.tail ?_]
        · rw [ha']
        · intro _ x hx
          have hrel := (List.chain'_cons'.mp hchain).1 x hx
          by_cases hx2 : pyIsSpace x = true
          · exact absurd ⟨ha, hx2⟩ hrel
          · simpa using hx2
    · rw [show collapseWsAux prev (a :: rest) = a :: collapseWsAux false rest from by
        simp [collapseWsAux, ha]]
      rw [ih false (fun c hc => hchars c (List.mem_cons_of_mem _ hc)) hchain.tail
        (fun hfalse => absurd hfalse (by decide))]

theorem alnum_not_space (c : Char) (h : c.isAlphanum = true) : pyIsSpace c = false := by
  simp only [pyIsSpace, Bool.or_eq_false_iff, beq_eq_false_iff_ne, ne_eq]
  refine ⟨⟨⟨⟨⟨?_, ?_⟩, ?_⟩, ?_⟩, ?_⟩, ?_⟩ <;> (rintro rfl; exact absurd h (by decide))

theorem map_aggressiveReplace_eq_self :
    ∀ l : List Char, (∀ c ∈ l, c.isAlphanum = true ∨ pyIsSpace c = true) →
      l.map aggressiveReplace = l := by
  intro l
  induction l with
  | nil => intro _; rfl
  | cons a rest ih =>
    intro h
    have ha : aggressiveReplace a = a := by
      rcases h a (List.mem_cons_self _ _) with h1 | h1 <;> simp [aggressiveReplace, h1]
    simp only [List.map_cons, ha, List.cons.injEq, true_and]
    exact ih (fun c hc => h c (List.mem_cons_of_mem _ hc))

theorem mem_map_aggressiveReplace (c : Char) (l : List Char)
    (h : c ∈ l.map aggressiveReplace) : c.isAlphanum = true ∨ pyIsSpace c = true := by
  rcases List.mem_map.mp h with ⟨x, _, hx⟩
  by_cases h1 : (x.isAlphanum || pyIsSpace x) = true
  · rw [show aggressiveReplace x = x from by simp [aggressiveReplace, h1]] at hx
    subst hx
    simpa using h1
  · rw [show aggressiveReplace x = ' ' from by simp [aggressiveReplace, h1]] at hx
    subst hx
    exact Or.inr (by decide)

theorem aggressive_core_chars (l0 : List Char) :
    ∀ c ∈ stripWs (collapseWs (l0.map aggressiveReplace)),
      c.isAlphanum = true ∨ c = ' ' := by
  intro c hc
  have hc2 : c ∈ collapseWs (l0.map aggressiveReplace) := (stripWs_sublist _).subset hc
  rcases mem_collapseWsAux c _ false hc2 with h1 | ⟨h2, h3⟩
  · exact Or.inr h1
  · rcases mem_map_aggressiveReplace c _ h2 with h4 | h4
    · exact Or.inl h4
    · rw [h4] at h3; exact absurd h3 (by simp)

theorem aggressive_core_idempotent (l0 : List Char) :
    stripWs (collapseWs
      ((stripWs (collapseWs (l0.map aggressiveReplace))).map aggressiveReplace))
      = stripWs (collapseWs (l0.map aggressiveReplace)) := by
  have hchars : ∀ c ∈ stripWs (collapseWs (l0.map aggressiveReplace)),
      c.isAlphanum = true ∨ c = ' ' := aggressive_core_chars l0
  have hmap : (stripWs (collapseWs (l0.map aggressiveReplace))).map aggressiveReplace
      = stripWs (collapseWs (l0.map aggressiveReplace)) := by
    refine map_aggressiveReplace_eq_self _ (fun c hc => ?_)
    rcases hchars c hc with h | h
    · exact Or.inl h
    · exact Or.inr (by rw [h]; decide)
  have hchain : (stripWs (collapseWs (l0.map aggressiveReplace))).Chain' NotBothSpace :=
    stripWs_chain' _ (chain'_collapseWsAux _ false)
  have hspacechar : ∀ c ∈ stripWs (collapseWs (l0.map aggressiveReplace)),
      pyIsSpace c = true → c = ' ' := by
    intro c hc hsp
    rcases hchars c hc with h | h
    · rw [alnum_not_space c h] at hsp; exact absurd hsp (by decide)
    · exact h
  have hhead := stripWs_head_not_space (collapseWs (l0.map aggressiveReplace))
  have hlast := stripWs_getLast_not_space (collapseWs (l0.map aggressiveReplace))
  have hcollapse : collapseWs (stripWs (collapseWs (l0.map aggressiveReplace)))
      = stripWs (collapseWs (l0.map aggressiveReplace)) :=
    collapseWsAux_eq_self _ false hspacechar hchain (fun hfalse => absurd hfalse (by decide))
  rw [hmap, hcollapse]
  exact stripWs_eq_self _ hhead hlast

/-- C4 counterexample: the conservative clean is NOT idempotent.  On
`"(19(1999)99)"` one application removes the inner `(1999)` leaving
`"(1999)"`, and a second application removes that newly formed bracketed year,
giving the empty string. -/
theorem C4_counterexample :
    get_conservative_query (get_conservative_query "(19(1999)99)")
      ≠ get_conservative_query "(19(1999)99)" := by decide

/-- C4 amended: the aggressive clean is idempotent — for every string,
applying it twice equals applying it once.  (The conservative clean is not:
removing a bracketed year can create a new bracketed-year occurrence, see the
counterexample.) -/
theorem C4_aggressive_idempotent (s : String) :
    get_aggressive_query (get_aggressive_query s) = get_aggressive_query s := by
  unfold get_aggressive_query
  exact congrArg String.mk (aggressive_core_idempotent s.data)

/-! ### Dict-model lemmas (for the deduplication analysis, C1) -/

theorem optOr_none {α : Type} (x : Option α) : optOr x none = x := by
  cases x <;> rfl

theorem optOr_assoc {α : Type} (a b c : Option α) :
    optOr (optOr a b) c = optOr a (optOr b c) := by
  cases a <;> rfl

theorem optOr_isSome {α : Type} (a b : Option α) :
    (optOr a b).isSome = (a.isSome || b.isSome) := by
  cases a <;> simp [optOr]

theorem pyDictLookup_insert {κ α : Type} [DecidableEq κ] (q k : κ) (v : α)
    (d : List (κ × α)) :
    pyDictLookup q (pyDictInsert k v d)
      = if k = q then some v else pyDictLookup q d := by
  induction d with
  | nil => by_cases hq : k = q <;> simp [pyDictInsert, pyDictLookup, hq]
  | cons p rest ih =>
    obtain ⟨k', v'⟩ := p
    by_cases hk : k' = k
    · subst hk
      by_cases hq : k' = q <;> simp [pyDictInsert, pyDictLookup, hq]
    · by_cases hq : k' = q
      · subst hq
        have hkq : ¬(k = k') := fun he => hk he.symm
        simp [pyDictInsert, pyDictLookup, hk, hkq]
      · simp [pyDictInsert, pyDictLookup, hk, hq, ih]

theorem pyDictLookup_insertIfAbsent {κ α : Type} [DecidableEq κ] (q k : κ) (v : α)
    (d : List (κ × α)) :
    pyDictLookup q (pyDictInsertIfAbsent k v d)
      = optOr (pyDictLookup q d) (if k = q then some v else none) := by
  induction d with
  | nil => by_cases hq : k = q <;> simp [pyDictInsertIfAbsent, pyDictLookup, optOr, hq]
  | cons p rest ih =>
    obtain ⟨k', v'⟩ := p
    by_cases hk : k' = k
    · subst hk
      by_cases hq : k' = q
      · simp [pyDictInsertIfAbsent, pyDictLookup, hq, optOr]
      · simp [pyDictInsertIfAbsent, pyDictLookup, hq, optOr_none]
    · by_cases hq : k' = q
      · subst hq
        have hkq : ¬(k = k') := fun he => hk he.symm
        simp [pyDictInsertIfAbsent, pyDictLookup, hk, hkq, optOr]
      · simp [pyDictInsertIfAbsent, pyDictLookup, hk, hq, ih]

theorem firstPairVal_append {κ α : Type} [DecidableEq κ] (q : κ) :
    ∀ l1 l2 : List (κ × α),
      firstPairVal q (l1 ++ l2) = optOr (firstPairVal q l1) (firstPairVal q l2) := by
  intro l1 l2
  induction l1 with
  | nil => simp [firstPairVal, optOr]
  | cons p rest ih =>
    obtain ⟨k', v'⟩ := p
    by_cases hq : k' = q <;> simp [firstPairVal, optOr, hq, ih]

theorem lastPairVal_cons {κ α : Type} [DecidableEq κ] (q : κ) (p : κ × α)
    (rest : List (κ × α)) :
    lastPairVal q (p :: rest)
      = optOr (lastPairVal q rest) (if p.1 = q then some p.2 else none) := by
  unfold lastPairVal
  rw [List.reverse_cons, firstPairVal_append]
  congr 1

theorem lookup_foldl_insert {κ α : Type} [DecidableEq κ] (q : κ) :
    ∀ (ps : List (κ × α)) (d : List (κ × α)),
      pyDictLookup q (ps.foldl (fun d' p => pyDictInsert p.1 p.2 d') d)
        = optOr (lastPairVal q ps) (pyDictLookup q d) := by
  intro ps
  induction ps with
  | nil => intro d; simp [lastPairVal, firstPairVal, optOr]
  | cons p rest ih =>
    intro d
    rw [List.foldl_cons, ih (pyDictInsert p.1 p.2 d), pyDictLookup_insert,
      lastPairVal_cons, optOr_assoc]
    congr 1
    by_cases hq : p.1 = q <;> simp [optOr, hq]

theorem lookup_foldl_insertIfAbsent {κ α : Type} [DecidableEq κ] (q : κ) :
    ∀ (ps : List (κ × α)) (d : List (κ × α)),
      pyDictLookup q (ps.foldl (fun d' p => pyDictInsertIfAbsent p.1 p.2 d') d)
        = optOr (pyDictLookup q d) (firstPairVal q ps) := by
  intro ps
  induction ps with
  | nil => intro d; simp [firstPairVal, optOr_none]
  | cons p rest ih =>
    intro d
    rw [List.foldl_cons, ih (pyDictInsertIfAbsent p.1 p.2 d),
      pyDictLookup_insertIfAbsent, optOr_assoc]
    congr 1
    obtain ⟨k, v⟩ := p
    by_cases hq : k = q <;> simp [firstPairVal, optOr, hq]

theorem lookup_isSome_iff_mem_keys {κ α : Type} [DecidableEq κ] (k : κ)
    (d : List (κ × α)) :
    (pyDictLookup k d).isSome = true ↔ k ∈ dictKeys d := by
  induction d with
  | nil => simp [pyDictLookup, dictKeys]
  | cons p rest ih =>
    obtain ⟨k', v'⟩ := p
    by_cases hk : k' = k
    · subst hk; simp [pyDictLookup, dictKeys]
    · have hk2 : ¬(k = k') := fun he => hk he.symm
      simp [pyDictLookup, dictKeys, hk, hk2, ih]

theorem dictKeys_insert {κ α : Type} [DecidableEq κ] (k : κ) (v : α)
    (d : List (κ × α)) :
    dictKeys (pyDictInsert k v d)
      = if (pyDictLookup k d).isSome then dictKeys d else dictKeys d ++ [k] := by
  induction d with
  | nil => simp [pyDictInsert, pyDictLookup, dictKeys]
  | cons p rest ih =>
    obtain ⟨k', v'⟩ := p
    by_cases hk : k' = k
    · subst hk; simp [pyDictInsert, pyDictLookup, dictKeys]
    · rw [show pyDictInsert k v ((k', v') :: rest) = (k', v') :: pyDictInsert k v rest from by
        simp [pyDictInsert, hk]]
      rw [show pyDictLookup k ((k', v') :: rest) = pyDictLookup k rest from by
        simp [pyDictLookup, hk]]
      by_cases hs : (pyDictLookup k rest).isSome = true
      · simp only [dictKeys, List.map_cons, hs, if_true] at ih ⊢
        rw [ih]
      · simp only [dictKeys, List.map_cons, hs, Bool.false_eq_true, if_false] at ih ⊢
        rw [ih, List.cons_append]

theorem dictKeys_insertIfAbsent {κ α : Type} [DecidableEq κ] (k : κ) (v : α)
    (d : List (κ × α)) :
    dictKeys (pyDictInsertIfAbsent k v d)
      = if (pyDictLookup k d).isSome then dictKeys d else dictKeys d ++ [k] := by
  induction d with
  | nil => simp [pyDictInsertIfAbsent, pyDictLookup, dictKeys]
  | cons p rest ih =>
    obtain ⟨k', v'⟩ := p
    by_cases hk : k' = k
    · subst hk; simp [pyDictInsertIfAbsent, pyDictLookup, dictKeys]
    · rw [show pyDictInsertIfAbsent k v ((k', v') :: rest)
          = (k', v') :: pyDictInsertIfAbsent k v rest from by
        simp [pyDictInsertIfAbsent, hk]]
      rw [show pyDictLookup k ((k', v') :: rest) = pyDictLookup k rest from by
        simp [pyDictLookup, hk]]
      by_cases hs : (pyDictLookup k rest).isSome = true
      · simp only [dictKeys, List.map_cons, hs, if_true] at ih ⊢
        rw [ih]
      · simp only [dictKeys, List.map_cons, hs, Bool.false_eq_true, if_false] at ih ⊢
        rw [ih, List.cons_append]

theorem mem_dictKeys_of_keysEq {κ α : Type} [DecidableEq κ]
    (f : κ → α → List (κ × α) → List (κ × α))
    (hkeys : ∀ (k : κ) (v : α) (d : List (κ × α)),
      dictKeys (f k v d)
        = if (pyDictLookup k d).isSome then dictKeys d else dictKeys d ++ [k])
    (k' k : κ) (v : α) (d : List (κ × α)) :
    k' ∈ dictKeys (f k v d) ↔ k' ∈ dictKeys d ∨ k' = k := by
  rw [hkeys]
  by_cases hs : (pyDictLookup k d).isSome = true
  · simp only [hs, if_true]
    constructor
    · exact Or.inl
    · rintro (h | rfl)
      · exact h
      · exact (lookup_isSome_iff_mem_keys k' d).mp hs
  · simp [hs]

theorem nodup_dictKeys_of_keysEq {κ α : Type} [DecidableEq κ]
    (f : κ → α → List (κ × α) → List (κ × α))
    (hkeys : ∀ (k : κ) (v : α) (d : List (κ × α)),
      dictKeys (f k v d)
        = if (pyDictLookup k d).isSome then dictKeys d else dictKeys d ++ [k])
    (k : κ) (v : α) (d : List (κ × α)) (h : (dictKeys d).Nodup) :
    (dictKeys (f k v d)).Nodup := by
  rw [hkeys]
  by_cases hs : (pyDictLookup k d).isSome = true
  · simpa [hs] using h
  · simp only [hs, Bool.false_eq_true, if_false]
    refine h.append (List.nodup_singleton k) ?_
    intro a ha hb
    rw [List.mem_singleton] at hb
    subst hb
    exact hs ((lookup_isSome_iff_mem_keys a d).mpr ha)

theorem dict_build_nodup {κ α : Type} [DecidableEq κ]
    (f : κ → α → List (κ × α) → List (κ × α))
    (hkeys : ∀ (k : κ) (v : α) (d : List (κ × α)),
      dictKeys (f k v d)
        = if (pyDictLookup k d).isSome then dictKeys d else dictKeys d ++ [k]) :
    ∀ (ps : List (κ × α)) (d : List (κ × α)), (dictKeys d).Nodup →
      (dictKeys (ps.foldl (fun d' p => f p.1 p.2 d') d)).Nodup := by
  intro ps
  induction ps with
  | nil => intro d h; simpa using h
  | cons p rest ih =>
    intro d h
    rw [List.foldl_cons]
    exact ih _ (nodup_dictKeys_of_keysEq f hkeys p.1 p.2 d h)

theorem dict_build_mem_keys {κ α : Type} [DecidableEq κ]
    (f : κ → α → List (κ × α) → List (κ × α))
    (hkeys : ∀ (k : κ) (v : α) (d : List (κ × α)),
      dictKeys (f k v d)
        = if (pyDictLookup k d).isSome then dictKeys d else dictKeys d ++ [k]) :
    ∀ (ps : List (κ × α)) (d : List (κ × α)) (k : κ),
      k ∈ dictKeys (ps.foldl (fun d' p => f p.1 p.2 d') d)
        ↔ k ∈ dictKeys d ∨ k ∈ ps.map Prod.fst := by
  intro ps
  induction ps with
  | nil => intro d k; simp
  | cons p rest ih =>
    intro d k
    rw [List.foldl_cons, ih (f p.1 p.2 d) k]
    rw [mem_dictKeys_of_keysEq f hkeys k p.1 p.2 d]
    simp only [List.map_cons, List.mem_cons]
    tauto

theorem dict_build_length {κ α : Type} [DecidableEq κ]
    (f : κ → α → List (κ × α) → List (κ × α))
    (hkeys : ∀ (k : κ) (v : α) (d : List (κ × α)),
      dictKeys (f k v d)
        = if (pyDictLookup k d).isSome then dictKeys d else dictKeys d ++ [k])
    (ps : List (κ × α)) :
    (ps.foldl (fun d' p => f p.1 p.2 d') []).length = (ps.map Prod.fst).toFinset.card := by
  have hnodup : (dictKeys (ps.foldl (fun d' p => f p.1 p.2 d') [])).Nodup :=
    dict_build_nodup f hkeys ps [] (by simp [dictKeys])
  have hmem := dict_build_mem_keys f hkeys ps ([] : List (κ × α))
  have hset : (dictKeys (ps.foldl (fun d' p => f p.1 p.2 d') [])).toFinset
      = (ps.map Prod.fst).toFinset := by
    ext a
    simp only [List.mem_toFinset]
    rw [hmem a]
    simp [dictKeys]
  have hlen : (ps.foldl (fun d' p => f p.1 p.2 d') []).length
      = (dictKeys (ps.foldl (fun d' p => f p.1 p.2 d') [])).length := by
    simp [dictKeys]
  rw [hlen, ← List.toFinset_card_of_nodup hnodup, hset]

theorem firstPairVal_map_key {κ : Type} [DecidableEq κ] (key : Torrent → κ) (k : κ) :
    ∀ l : List Torrent,
      firstPairVal k (l.map (fun t => (key t, t))) = firstWithKey key k l := by
  intro l
  induction l with
  | nil => rfl
  | cons t rest ih =>
    by_cases hk : key t = k <;> simp [firstPairVal, firstWithKey, hk, ih]

theorem lastPairVal_map_key {κ : Type} [DecidableEq κ] (key : Torrent → κ) (k : κ)
    (l : List Torrent) :
    lastPairVal k (l.map (fun t => (key t, t))) = lastWithKey key k l := by
  unfold lastPairVal lastWithKey
  rw [← List.map_reverse, firstPairVal_map_key]

/-- C1 counterexample: with two same-key candidates, one from each pass, the
dict-comprehension deduplication of `x1337xtube.search` (and `leetx.search`)
retains the record of the pass that ran LAST, not first: merging
`[torrentA, torrentB]` (equal `desc_link`, `torrentA` from pass 1) keeps
`torrentB`. -/
theorem C1_counterexample :
    x1337xtube_dedup [torrentA, torrentB] = [torrentB]
      ∧ torrentA.desc_link = torrentB.desc_link ∧ torrentA ≠ torrentB := by
  exact ⟨rfl, rfl, by decide⟩

/-- C1 amended: for every merged candidate list, each deduplication produces
exactly one record per distinct identity key (the size equals the number of
distinct keys, for the `desc_link` key of x1337xtube/torrentproject and the
name-size key of bitsearch); for every key, the explicit first-wins loops of
`torrentproject.search` and `bitsearch.search` retain the FIRST occurrence in
the concatenated pass order, while the dict comprehensions of
`x1337xtube.search` and `leetx.search` retain the LAST occurrence. -/
theorem C1_dedup_amended (l : List Torrent) (k : String) :
    (x1337xtube_dedup l).length = (l.map (fun t => t.desc_link)).toFinset.card
      ∧ (torrentproject_dedup l).length = (l.map (fun t => t.desc_link)).toFinset.card
      ∧ (bitsearch_dedup l).length = (l.map bitsearch_dedup_key).toFinset.card
      ∧ pyDictLookup k (torrentproject_dict l) = firstWithKey (fun t => t.desc_link) k l
      ∧ pyDictLookup k (bitsearch_dict l) = firstWithKey bitsearch_dedup_key k l
      ∧ pyDictLookup k (x1337xtube_dict l) = lastWithKey (fun t => t.desc_link) k l := by
  refine ⟨?_, ?_, ?_, ?_, ?_, ?_⟩
  · unfold x1337xtube_dedup x1337xtube_dict
    rw [List.length_map, dict_build_length pyDictInsert dictKeys_insert, List.map_map]
    rfl
  · unfold torrentproject_dedup torrentproject_dict
    rw [List.length_map, dict_build_length pyDictInsertIfAbsent dictKeys_insertIfAbsent,
      List.map_map]
    rfl
  · unfold bitsearch_dedup bitsearch_dict
    rw [List.length_map, dict_build_length pyDictInsertIfAbsent dictKeys_insertIfAbsent,
      List.map_map]
    rfl
  · unfold torrentproject_dict
    rw [lookup_foldl_insertIfAbsent]
    simp only [pyDictLookup, optOr]
    exact firstPairVal_map_key _ k l
  · unfold bitsearch_dict
    rw [lookup_foldl_insertIfAbsent]
    simp only [pyDictLookup, optOr]
    exact firstPairVal_map_key _ k l
  · unfold x1337xtube_dict
    rw [lookup_foldl_insert]
    rw [show pyDictLookup k ([] : List (String × Torrent)) = none from rfl, optOr_none]
    exact lastPairVal_map_key _ k l

/-- C2 counterexample: `torrentproject.search` does NOT drop candidates whose
magnet resolution fails — with a resolver that always fails, the selected
candidate is still emitted, carrying the placeholder link `"-1"`. -/
theorem C2_counterexample :
    (torrentproject_emit_phase (fun _ => none) [torrentC]).map (fun r => r.link) = ["-1"]
      ∧ (torrentproject_emit_phase (fun _ => none) [torrentC]).length = 1 :=
  ⟨rfl, rfl⟩

/-- C2 amended: in `x1337xtube.search`, `leetx.search` and `bitsearch.search`
the emission loop only prints candidates whose resolution succeeded, and every
emitted record's link is the resolved link (hence non-empty whenever the
resolver only returns non-empty links); `torrentproject.search` instead emits
every selected candidate, substituting the placeholder `"-1"` when resolution
fails. -/
theorem C2_emit_amended (fetch_magnet : Torrent → Option String) (l : List Torrent) :
    (∀ r ∈ x1337xtube_emit_phase fetch_magnet l, ∃ t ∈ l, fetch_magnet t = some r.link)
      ∧ ((∀ t m, fetch_magnet t = some m → m ≠ "") →
          ∀ r ∈ x1337xtube_emit_phase fetch_magnet l, r.link ≠ "")
      ∧ (torrentproject_emit_phase fetch_magnet l).length = l.length
      ∧ (∀ t ∈ l, fetch_magnet t = none →
          ({ link := "-1", name := t.name, size := t.size, seeds := t.seeds,
             leech := t.leech, desc_link := t.desc_link } : EmitRecord)
            ∈ torrentproject_emit_phase fetch_magnet l) := by
  refine ⟨?_, ?_, ?_, ?_⟩
  · intro r hr
    rcases List.mem_filterMap.mp hr with ⟨t, ht, hmap⟩
    rcases Option.map_eq_some'.mp hmap with ⟨m, hm, hrec⟩
    refine ⟨t, ht, ?_⟩
    rw [hm, ← hrec]
  · intro hne r hr
    rcases List.mem_filterMap.mp hr with ⟨t, _, hmap⟩
    rcases Option.map_eq_some'.mp hmap with ⟨m, hm, hrec⟩
    rw [← hrec]
    exact hne t m hm
  · simp [torrentproject_emit_phase]
  · intro t ht hnone
    refine List.mem_map.mpr ⟨t, ht, ?_⟩
    rw [hnone]

/-- C2 witness: the amended theorem applied to a concrete failing resolver
and one selected candidate. -/
theorem C2_emit_witness :
    ({ link := "-1", name := torrentC.name, size := torrentC.size,
       seeds := torrentC.seeds, leech := torrentC.leech,
       desc_link := torrentC.desc_link } : EmitRecord)
      ∈ torrentproject_emit_phase (fun _ => none) [torrentC] :=
  (C2_emit_amended (fun _ => none) [torrentC]).2.2.2 torrentC
    (List.mem_singleton_self _) rfl

/-! ### Search-pipeline claims (C5) -/

/-- C5 counterexample: for the input `"(1999)"` the conservative cleaned form
is empty, yet the search neither aborts nor stays fetch-free: the aggressive
form `"1999"` differs, so the pass-2 fetch runs (the performed-fetch list is
`["1999"]`) and, with a source returning one candidate and a succeeding
resolver, one record is emitted. -/
theorem C5_counterexample :
    get_conservative_query "(1999)" = ""
      ∧ (x1337xtube_search (fun _ => [torrentC])
          (fun _ => some "magnet:?xt=urn:btih:abc") "(1999)").2 = ["1999"]
      ∧ ((x1337xtube_search (fun _ => [torrentC])
          (fun _ => some "magnet:?xt=urn:btih:abc") "(1999)").1).length = 1 := by
  refine ⟨by decide, by decide, by decide⟩

/-- C5 amended: when the conservative cleaned form is empty, only the pass-1
fetch is skipped; the search terminates with no fetch of any kind and no
emission exactly when the AGGRESSIVE cleaned form is empty as well. -/
theorem C5_empty_query_amended (fetch : String → List Torrent)
    (fetch_magnet : Torrent → Option String) (decoded_what : String)
    (h1 : get_conservative_query decoded_what = "")
    (h2 : get_aggressive_query decoded_what = "") :
    x1337xtube_search fetch fetch_magnet decoded_what = ([], []) := by
  simp only [x1337xtube_search, h1, h2]
  simp [x1337xtube_execute_search_pass, x1337xtube_dedup, x1337xtube_dict]

/-- C5 witness: the amended theorem applied to a whitespace query, whose two
cleaned forms are both empty. -/
theorem C5_empty_query_witness :
    x1337xtube_search (fun _ => [torrentC]) (fun _ => none) " " = ([], []) :=
  C5_empty_query_amended (fun _ => [torrentC]) (fun _ => none) " " (by decide) (by decide)

/-! ### Character-count preservation of the conservative clean (C6) -/

theorem count_stripYearsAux (c : Char) (hb : c ∉ ['(', ')', '[', ']'])
    (hd : c.isDigit = false) :
    ∀ (fuel : Nat) (l : List Char), (stripYearsAux fuel l).count c = l.count c := by
  intro fuel
  induction fuel with
  | zero => intro l; rfl
  | succ fuel ih =>
    intro l
    rcases l with _ | ⟨c0, rest⟩
    · rfl
    rcases rest with _ | ⟨c1, _ | ⟨c2, _ | ⟨c3, _ | ⟨c4, _ | ⟨c5, rest2⟩⟩⟩⟩⟩
    · rfl
    · rfl
    · rfl
    · rfl
    · rfl
    by_cases hmatch : ((c0 == '(' || c0 == '[') && c1.isDigit && c2.isDigit && c3.isDigit
        && c4.isDigit && (c5 == ')' || c5 == ']')) = true
    · rw [show stripYearsAux (fuel + 1) (c0 :: c1 :: c2 :: c3 :: c4 :: c5 :: rest2)
          = stripYearsAux fuel rest2 from by simp [stripYearsAux, hmatch]]
      rw [ih rest2]
      simp only [Bool.and_eq_true, Bool.or_eq_true, beq_iff_eq] at hmatch
      obtain ⟨⟨⟨⟨⟨h0, h1⟩, h2⟩, h3⟩, h4⟩, h5⟩ := hmatch
      have e0 : (c0 == c) = false := by
        refine beq_eq_false_iff_ne.mpr (fun he => ?_)
        subst he
        rcases h0 with rfl | rfl
        · exact hb (by simp)
        · exact hb (by simp)
      have e1 : (c1 == c) = false := by
        refine beq_eq_false_iff_ne.mpr (fun he => ?_)
        subst he
        rw [h1] at hd
        exact absurd hd (by simp)
      have e2 : (c2 == c) = false := by
        refine beq_eq_false_iff_ne.mpr (fun he => ?_)
        subst he
        rw [h2] at hd
        exact absurd hd (by simp)
      have e3 : (c3 == c) = false := by
        refine beq_eq_false_iff_ne.mpr (fun he => ?_)
        subst he
        rw [h3] at hd
        exact absurd hd (by simp)
      have e4 : (c4 == c) = false := by
        refine beq_eq_false_iff_ne.mpr (fun he => ?_)
        subst he
        rw [h4] at hd
        exact absurd hd (by simp)
      have e5 : (c5 == c) = false := by
        refine beq_eq_false_iff_ne.mpr (fun he => ?_)
        subst he
        rcases h5 with rfl | rfl
        · exact hb (by simp)
        · exact hb (by simp)
      simp [List.count_cons, e0, e1, e2, e3, e4, e5]
    · rw [show stripYearsAux (fuel + 1) (c0 :: c1 :: c2 :: c3 :: c4 :: c5 :: rest2)
          = c0 :: stripYearsAux fuel (c1 :: c2 :: c3 :: c4 :: c5 :: rest2) from by
        simp [stripYearsAux, hmatch]]
      simp [List.count_cons, ih]

theorem count_collapseWsAux (c : Char) (hc : pyIsSpace c = false) :
    ∀ (l : List Char) (prev : Bool), (collapseWsAux prev l).count c = l.count c := by
  intro l
  induction l with
  | nil => intro prev; rfl
  | cons a rest ih =>
    intro prev
    by_cases ha : pyIsSpace a = true
    · have hac : (a == c) = false := by
        refine beq_eq_false_iff_ne.mpr (fun he => ?_)
        subst he
        rw [ha] at hc
        exact absurd hc (by simp)
      have hsc : ((' ' : Char) == c) = false := by
        refine beq_eq_false_iff_ne.mpr (fun he => ?_)
        rw [← he] at hc
        exact absurd hc (by decide)
      cases prev with
      | true =>
        rw [show collapseWsAux true (a :: rest) = collapseWsAux true rest from by
          simp [collapseWsAux, ha]]
        simp [List.count_cons, hac, ih true]
      | false =>
        rw [show collapseWsAux false (a :: rest) = ' ' :: collapseWsAux true rest from by
          simp [collapseWsAux, ha]]
        simp [List.count_cons, hac, hsc, ih true]
    · rw [show collapseWsAux prev (a :: rest) = a :: collapseWsAux false rest from by
        simp [collapseWsAux, ha]]
      simp [List.count_cons, ih false]

theorem count_dropWhile_not (p : Char → Bool) (c : Char) (hc : p c = false) :
    ∀ l : List Char, (l.dropWhile p).count c = l.count c := by
  intro l
  induction l with
  | nil => rfl
  | cons a rest ih =>
    by_cases ha : p a = true
    · rw [show (a :: rest).dropWhile p = rest.dropWhile p from by
        simp [List.dropWhile_cons, ha]]
      have hac : (a == c) = false := by
        refine beq_eq_false_iff_ne.mpr (fun he => ?_)
        rw [he] at ha
        exact absurd ha (by simp [hc])
      simp [List.count_cons, hac, ih]
    · rw [show (a :: rest).dropWhile p = a :: rest from by simp [List.dropWhile_cons, ha]]

theorem count_stripWs (c : Char) (hc : pyIsSpace c = false) (l : List Char) :
    (stripWs l).count c = l.count c := by
  unfold stripWs
  rw [List.count_reverse, count_dropWhile_not _ _ hc, List.count_reverse,
    count_dropWhile_not _ _ hc]

/-- C6 counterexample: the query cleaning of `piratebay._clean_query` (and
`yts_mx._clean_query`), applied to build the search term, does NOT preserve
ampersands: it truncates the query at the first `&`, so
`"Tom & Jerry"` becomes `"Tom"`. -/
theorem C6_counterexample :
    piratebay_clean_query "Tom & Jerry" = "Tom"
      ∧ ("Tom & Jerry" : String).data.count '&' = 1
      ∧ ("Tom" : String).data.count '&' = 0 := by
  refine ⟨by decide, by decide, by decide⟩

/-- C6 amended: the CONSERVATIVE clean (pass 1 of x1337xtube, leetx,
bitsearch, torrentgalaxy_one) changes nothing except removing bracketed
4-digit years and collapsing/trimming whitespace — every occurrence of any
character that is not a bracket, not a digit and not whitespace (in
particular every hyphen, colon and ampersand) is preserved; the single-pass
`_clean_query` of piratebay/yts_mx, however, is a different transform that
removes ampersands (see the counterexample). -/
theorem C6_conservative_preserves_amended (s : String) (c : Char)
    (hb : c ∉ ['(', ')', '[', ']']) (hd : c.isDigit = false)
    (hs : pyIsSpace c = false) :
    (get_conservative_query s).data.count c = s.data.count c := by
  show (stripWs (collapseWs (stripYears s.data))).count c = s.data.count c
  unfold collapseWs stripYears
  rw [count_stripWs c hs, count_collapseWsAux c hs _ false,
    count_stripYearsAux c hb hd _ _]

/-- C6 witness: the amended theorem applied to a query containing a hyphen, a
colon and an ampersand. -/
theorem C6_conservative_preserves_witness :
    (get_conservative_query "A-B: C & D (1999)").data.count '&'
      = ("A-B: C & D (1999)" : String).data.count '&' :=
  C6_conservative_preserves_amended "A-B: C & D (1999)" '&'
    (by decide) (by decide) (by decide)

/-! ### Selection policy (C8) -/

theorem mem_score_le_maxScoreOf (st : ScoredTorrent) :
    ∀ l : List ScoredTorrent, st ∈ l → st.score ≤ maxScoreOf l := by
  intro l
  induction l with
  | nil => intro h; simp at h
  | cons a rest ih =>
    intro h
    rcases List.mem_cons.mp h with rfl | h2
    · unfold maxScoreOf
      simp only [List.map_cons, List.foldr_cons]
      exact le_max_left _ _
    · unfold maxScoreOf at ih ⊢
      simp only [List.map_cons, List.foldr_cons]
      exact le_trans (ih h2) (le_max_right _ _)

theorem maxScoreOf_le (b : Nat) :
    ∀ l : List ScoredTorrent, (∀ st ∈ l, st.score ≤ b) → maxScoreOf l ≤ b := by
  intro l
  induction l with
  | nil => intro _; exact Nat.zero_le b
  | cons a rest ih =>
    intro h
    unfold maxScoreOf at ih ⊢
    simp only [List.map_cons, List.foldr_cons]
    exact max_le (h a (List.mem_cons_self _ _))
      (ih (fun st hst => h st (List.mem_cons_of_mem _ hst)))

/-- C8 confirmed (stated for an arbitrary safety-net count, covering the
value 5 of x1337xtube/leetx/torrentproject and 8 of bitsearch): after scoring
and sorting, the selection takes the whole top tier plus the first
`safety_net_count` lower-tier candidates, so its length is
`len(topTier) + min(safetyNetCount, len(lowerTier))`, and every top-tier
element's score equals the maximum score present among the candidates. -/
theorem C8_selection_bound (n : Nat) (scored : List ScoredTorrent) :
    (select_top_and_safety n (x1337xtube_sort scored)).length
        = (top_tier_of (x1337xtube_sort scored)).length
          + min n (lower_tier_of (x1337xtube_sort scored)).length
      ∧ ∀ t ∈ top_tier_of (x1337xtube_sort scored), t.score = maxScoreOf scored := by
  constructor
  · unfold select_top_and_safety
    rw [List.length_append, List.length_take]
  · intro t ht
    cases hsort : x1337xtube_sort scored with
    | nil => rw [hsort] at ht; simp [top_tier_of] at ht
    | cons s0 rest =>
      rw [hsort] at ht
      unfold top_tier_of at ht
      have hts : t.score = s0.score := by
        have hmem := List.mem_filter.mp ht
        simpa using hmem.2
      rw [hts]
      have hsorted : List.Sorted score_seeds_ge (x1337xtube_sort scored) :=
        List.sorted_insertionSort score_seeds_ge scored
      rw [hsort] at hsorted
      have hperm : (x1337xtube_sort scored).Perm scored :=
        List.perm_insertionSort score_seeds_ge scored
      have hs0mem : s0 ∈ scored := by
        refine hperm.mem_iff.mp ?_
        rw [hsort]
        exact List.mem_cons_self _ _
      have hle : s0.score ≤ maxScoreOf scored := mem_score_le_maxScoreOf s0 scored hs0mem
      have hge : maxScoreOf scored ≤ s0.score := by
        refine maxScoreOf_le s0.score scored (fun st hst => ?_)
        have hst2 : st ∈ s0 :: rest := by
          rw [← hsort]
          exact hperm.mem_iff.mpr hst
        rcases List.mem_cons.mp hst2 with rfl | h3
        · exact le_refl _
        · have hrel := List.rel_of_sorted_cons hsorted st h3
          unfold score_seeds_ge at hrel
          omega
      omega

/-- C8 witness: the theorem applied to a one-element candidate list. -/
theorem C8_selection_witness :
    (select_top_and_safety 5 (x1337xtube_sort [scoredW])).length
        = (top_tier_of (x1337xtube_sort [scoredW])).length
          + min 5 (lower_tier_of (x1337xtube_sort [scoredW])).length
      ∧ scoredW.score = maxScoreOf [scoredW] :=
  ⟨(C8_selection_bound 5 [scoredW]).1,
   (C8_selection_bound 5 [scoredW]).2 scoredW (by decide)⟩

/-! ### Score bound (C10) -/

/-- C10 counterexample: a score of at least 100 CAN occur without the
completeness bonus.  With 100 searched occurrences of `aa` plus one `bb` and
a title that is `aa` a hundred times, the term-frequency base alone reaches
100 while the bonus is 0 because `bb` is missing from the title. -/
theorem C10_counterexample :
    calculate_advanced_score c10_title c10_keywords = 100
      ∧ calculate_advanced_score_bonus c10_title c10_keywords = 0 := by
  set_option maxRecDepth 10000 in refine ⟨by decide, by decide⟩

/-- C10 amended: the score is bounded by `100 + length(k)` (for the
x1337xtube/leetx/bitsearch scorer and the identical torrentproject scorer;
non-negativity is inherent, the score being a natural number), because the
term-frequency part sums `min(count_in_search, count_in_title)` over distinct
search words and so never exceeds the total number of searched keyword
occurrences; consequently a score of at least 100 implies that the
completeness bonus was awarded OR the keyword list itself has at least 100
entries. -/
theorem C10_score_bound_amended (title : String) (k : List String) :
    calculate_advanced_score title k ≤ 100 + k.length
      ∧ torrentproject_calculate_score title k ≤ 100 + k.length
      ∧ (100 ≤ calculate_advanced_score title k →
          calculate_advanced_score_bonus title k = 100 ∨ 100 ≤ k.length) := by
  have hbase : calculate_advanced_score_base title k ≤ k.length := by
    unfold calculate_advanced_score_base
    calc (k.dedup.map (fun word =>
            min (k.count word) ((get_keywords_for_scoring (pyLower title)).count word))).sum
        ≤ (k.dedup.map (fun word => k.count word)).sum :=
          List.sum_le_sum (fun word _ => min_le_left _ _)
      _ = k.length := List.sum_map_count_dedup_eq_length k
  have hbonus : calculate_advanced_score_bonus title k = 100
      ∨ calculate_advanced_score_bonus title k = 0 := by
    unfold calculate_advanced_score_bonus
    exact ite_eq_or_eq _ _ _
  have hsum : calculate_advanced_score title k
      = calculate_advanced_score_bonus title k + calculate_advanced_score_base title k := rfl
  refine ⟨?_, ?_, ?_⟩
  · rcases hbonus with hb | hb <;> (rw [hsum, hb]; omega)
  · show calculate_advanced_score title k ≤ 100 + k.length
    rcases hbonus with hb | hb <;> (rw [hsum, hb]; omega)
  · intro h100
    rcases hbonus with hb | hb
    · exact Or.inl hb
    · right
      rw [hsum, hb] at h100
      omega

/-- C10 witness: the amended theorem at a concrete title and keyword list
(score 101, bonus awarded, bound 101). -/
theorem C10_score_bound_witness :
    calculate_advanced_score "aa" ["aa"] ≤ 100 + (["aa"] : List String).length
      ∧ (calculate_advanced_score_bonus "aa" ["aa"] = 100
          ∨ 100 ≤ (["aa"] : List String).length) :=
  ⟨(C10_score_bound_amended "aa" ["aa"]).1,
   (C10_score_bound_amended "aa" ["aa"]).2.2 (by decide)⟩
